import Mathlib

/-!
Shallow embedding of the core of `vechain.go` from `darrenvechain/xk6-vechain`:
the funding distributor (`Fund`) and the deduplicated block poller
(`pollForBlocks`).  Machine integers (`int`, `uint64`) are embedded as
`Nat`/`Int` (the quantities involved — account indices, block numbers,
timestamps — never approach overflow in the source's domain), `big.Int` as
`Int`, and the `float64` metric values as `ℚ`.  Fallible steps are `Except`/
`Option`-valued, and the Go runtime panic raised by `i % 0` is an explicit
error value.
-/

namespace XK6Vechain

/-- Asset kind of a transfer clause: a native VET value clause
(`transaction.NewClause(...).WithValue(value)`) or a VTHO token `transfer`
clause (`vtho.AsClause("transfer", fundee, value)`). -/
inductive AssetKind where
  | vet
  | vtho
deriving DecidableEq, Repr

/-- One transfer clause built by `Fund`.  `recipient` is the index of the
fundee account (its address in the source is `c.managers[recipient].Address()`;
index and address determine each other). -/
structure Clause where
  recipient : Nat
  kind : AssetKind
  amount : Int
deriving DecidableEq, Repr

/-- Value of one hexadecimal digit as accepted by Go's
`big.Int.SetString(s, 16)`: `0`-`9`, `a`-`f`, `A`-`F`. -/
def hexDigitVal (c : Char) : Option Nat :=
  if 48 ≤ c.toNat ∧ c.toNat ≤ 57 then some (c.toNat - 48)
  else if 97 ≤ c.toNat ∧ c.toNat ≤ 102 then some (c.toNat - 87)
  else if 65 ≤ c.toNat ∧ c.toNat ≤ 70 then some (c.toNat - 55)
  else none

/-- Accumulate the value of a list of hexadecimal digit characters; fails on
the first non-digit character. -/
def hexDigitsAux : List Char → Nat → Option Nat
  | [], acc => some acc
  | c :: cs, acc =>
    match hexDigitVal c with
    | none => none
    | some d => hexDigitsAux cs (acc * 16 + d)

/-- Model of Go's `big.Int.SetString(s, 16)`: an optional sign followed by at
least one hexadecimal digit; any other input fails (and the source's `value`
is then left undefined). -/
def goSetStringHex (s : String) : Option Int :=
  match s.data with
  | [] => none
  | '+' :: cs => if cs = [] then none else (hexDigitsAux cs 0).map Int.ofNat
  | '-' :: cs => if cs = [] then none else (hexDigitsAux cs 0).map (fun n => -(n : Int))
  | cs => (hexDigitsAux cs 0).map Int.ofNat

/-- Go map store `clauses[funderIndex] = ...`, with the map embedded as a
total function defaulting to the empty clause list (a missing key reads as a
`nil` slice, which the source replaces by an empty slice before appending). -/
def mapUpdate (m : Nat → List Clause) (k : Nat) (v : List Clause) : Nat → List Clause :=
  fun j => if j = k then v else m j

/-- The clause-building loop of `Fund`: for each recipient index `i` it
computes `funderIndex := i % start`, builds the VET value clause and the VTHO
transfer clause for `i`, and appends both to `clauses[funderIndex]`.
`Except.error ()` models the Go runtime panic (integer divide by zero) raised
by `i % start` when `start = 0` and the loop body runs. -/
def fundLoopE (start : Nat) (value : Int) :
    List Nat → (Nat → List Clause) → Except Unit (Nat → List Clause)
  | [], m => .ok m
  | i :: is, m =>
    if start = 0 then .error ()
    else
      let funderIndex := i % start
      let vetClause : Clause := ⟨i, .vet, value⟩
      let vthoClause : Clause := ⟨i, .vtho, value⟩
      fundLoopE start value is (mapUpdate m funderIndex (m funderIndex ++ [vetClause, vthoClause]))

/-- Outcome of the clause-building phase of `Fund`: the early
`errors.New("start index is greater than the number of accounts")` return,
the Go runtime divide-by-zero panic from `i % 0`, or the finished
funder-index → clause-list assignment. -/
inductive FundOutcome where
  | invalidStart
  | divByZero
  | ok (assignment : Nat → List Clause)

/-- Whether the clause-building phase failed to produce an assignment. -/
def FundOutcome.isErr : FundOutcome → Bool
  | .ok _ => false
  | _ => true

/-- Clause-building phase of `Fund` with the (single, loop-invariant) parsed
amount already supplied: the `start > len(c.managers)` guard, then the loop
over recipient indices `start, ..., N-1` starting from the empty map. -/
def fundBuildV (N start : Nat) (value : Int) : FundOutcome :=
  if N < start then .invalidStart
  else
    match fundLoopE start value (List.range' start (N - start)) (fun _ => []) with
    | .error _ => .divByZero
    | .ok m => .ok m

/-- Clause-building phase of `Fund` as called: the amount string is parsed
with `value.SetString(amount, 16)` and the boolean result is never inspected,
so a failed parse leaves `value` undefined — embedded as the arbitrary
`junk` argument. -/
def fundBuild (N start : Nat) (amount : String) (junk : Int) : FundOutcome :=
  fundBuildV N start ((goSetStringHex amount).getD junk)

/-- Batch partition used by each funding worker:
`for i := 0; i < len(clauses); i += 100 { end := min(i+100, len); clauses[i:end] }`. -/
def batches {α : Type} : List α → List (List α)
  | [] => []
  | c :: cs => ((c :: cs).take 100) :: batches ((c :: cs).drop 100)
termination_by cs => cs.length
decreasing_by
  simp only [List.length_drop, List.length_cons]
  omega

/-- One funding worker's sequential batch loop: `step j` is the combined
outcome of `Send` followed by `tx.Wait()` for the `j`-th batch (`none` =
submitted and confirmed, `some e` = submission or confirmation failed).  On
the first failure the worker records the error and returns, submitting none
of its remaining batches.  Returns the confirmed batches in order and the
recorded failure, if any. -/
def runBatches (step : Nat → Option String) :
    Nat → List (List Clause) → List (List Clause) × Option String
  | _, [] => ([], none)
  | j, b :: rest =>
    match step j with
    | some e => ([], some e)
    | none =>
      let r := runBatches step (j + 1) rest
      (b :: r.1, r.2)

/-- The parallel worker phase of `Fund`: one independent worker per funder in
the map, each batching its own clause list and running its own sequential
batch loop.  Workers share no state (the lone shared `clauseErr` slot is
modelled by `fundError` below), so the concurrent execution is embedded as
the list of per-worker results. -/
def fundWorkers (oracle : Nat → Nat → Option String) (funders : List Nat)
    (A : Nat → List Clause) : List (Nat × (List (List Clause) × Option String)) :=
  funders.map fun f => (f, runBatches (oracle f) 0 (batches (A f)))

/-- Whether `Fund` returns a non-nil error from the worker phase: every
failing worker writes its non-nil error to the shared `clauseErr` slot and no
worker ever writes nil, so after `wg.Wait()` the slot is non-nil exactly when
some worker recorded a failure (which failure survives is unspecified). -/
def fundError (oracle : Nat → Nat → Option String) (funders : List Nat)
    (A : Nat → List Clause) : Bool :=
  (fundWorkers oracle funders A).any fun p => p.2.2.isSome

/-- An observed chain head block, with the fields `pollForBlocks` reads:
`Number`, `Timestamp` (seconds), `len(Transactions)`, `GasUsed`, `GasLimit`. -/
structure Block where
  number : Nat
  timestamp : Nat
  txs : Nat
  gasUsed : Nat
  gasLimit : Nat
deriving DecidableEq, Repr

/-- Decimal digit character: `0` + d. -/
def digitChar (d : Nat) : Char := Char.ofNat (48 + d)

/-- Fuel-driven decimal digit production (most significant first), modelling
Go's `strconv.FormatUint(n, 10)` / `strconv.Itoa`; structurally recursive on
the fuel so that it reduces inside the kernel, and exact whenever the fuel
exceeds the argument. -/
def decCharsCore : Nat → Nat → List Char
  | 0, _ => []
  | fuel + 1, n =>
    if n < 10 then [digitChar n]
    else decCharsCore fuel (n / 10) ++ [digitChar (n % 10)]

/-- Decimal digit characters of `n`, most significant first, with enough fuel
to finish. -/
def decChars (n : Nat) : List Char := decCharsCore (n + 1) n

/-- Decimal rendering of a natural number, as `strconv.FormatUint(n, 10)`. -/
def decRepr (n : Nat) : String := String.mk (decChars n)

/-- Decimal evaluation of a character list (left fold); inverse of `decChars`,
used to prove `decRepr` injective. -/
def decVal (cs : List Char) : Nat :=
  cs.foldl (fun a c => a * 10 + (c.toNat - 48)) 0

/-- Rendering of the elapsed duration used for the `block_timestamp_diff` tag.
Go prints `time.Duration.String()`; for the whole-second sub-minute durations
produced here this is the signed decimal second count followed by `s`, which
is what this model renders (larger durations, which Go would break into
minutes and hours, are abstracted to the same form). -/
def durationStr (secs : Int) : String :=
  (if secs < 0 then "-" ++ decRepr (-secs).toNat else decRepr secs.toNat) ++ "s"

/-- One k6 metric sample: metric name, extra tags beyond the root tag set,
and numeric value (the wall-clock `Time` field is not modelled). -/
structure Sample where
  metric : String
  tags : List (String × String)
  value : ℚ
deriving DecidableEq, Repr

/-- The group of four samples `pollForBlocks` pushes for a newly observed,
non-duplicate block: block counter, gas-used trend, TPS trend, block-time
trend, with the tag maps written in source order. -/
def blockSamples (blk : Block) (tps : ℚ) (elapsed : Int) : List Sample :=
  [ ⟨"vechain_block",
      [("transactions", decRepr blk.txs), ("gas_used", decRepr blk.gasUsed),
       ("gas_limit", decRepr blk.gasLimit)],
      (blk.number : ℚ)⟩,
    ⟨"vechain_gas_used", [("block", decRepr blk.number)], (blk.gasUsed : ℚ)⟩,
    ⟨"vechain_tps", [], tps⟩,
    ⟨"vechain_block_time", [("block_timestamp_diff", durationStr elapsed)],
      ((elapsed * 1000 : Int) : ℚ)⟩ ]

/-- One tick of the `pollForBlocks` loop.  `avail` is the conjunction
`c.vu != nil && c.vu.State() != nil && rootTS != nil` tested by the source;
`read` is the result of `c.thor.Blocks.Best()` (`none` = read error, skip
tick); `prev` is the stored previous block; `reg` is the process-wide dedup
registry `blocks` (a `sync.Map` of key strings).  Returns the new stored
previous block, the new registry, and the emitted sample group, if any.
`blocks.LoadOrStore` is atomic in the source, so a tick's registry access is
a single indivisible step here; `elapsed` is the exact timestamp difference
in seconds and `tps` the float quotient, embedded over `ℚ`. -/
def tick (url : String) (avail : Bool) (read : Option Block) (prev : Block)
    (reg : List String) : Block × List String × Option (List Sample) :=
  match read with
  | none => (prev, reg, none)
  | some block =>
    if prev.number < block.number then
      let elapsed : Int := (block.timestamp : Int) - (prev.timestamp : Int)
      let tps : ℚ := (block.txs : ℚ) / (elapsed : ℚ)
      if avail then
        let key := url ++ decRepr block.number
        if key ∈ reg then (block, reg, none)
        else (block, key :: reg, some (blockSamples block tps elapsed))
      else (block, reg, none)
    else (prev, reg, none)

/-- A sequence of ticks of one poller instance: each step supplies that
tick's state availability and head-read result.  Returns the final stored
previous block and the final registry. -/
def runTicks (url : String) : List (Bool × Option Block) → Block → List String →
    Block × List String
  | [], prev, reg => (prev, reg)
  | s :: rest, prev, reg =>
    let t := tick url s.1 s.2 prev reg
    runTicks url rest t.1 t.2.1

/-- One concurrently running poller instance at the moment of a block
transition: its stored previous block, its state availability on this tick,
and the head block its read returns on this tick. -/
structure PollInst where
  prev : Block
  avail : Bool
  read : Option Block
deriving DecidableEq, Repr

/-- One tick of each of a set of poller instances sharing the registry, in an
arbitrary serialization order.  The registry gate (`LoadOrStore`) is atomic
in the source and no other state is shared between instances, so every
concurrent interleaving is equivalent to some such serialization.  Returns
the final registry and each instance's emission. -/
def pollRound (url : String) : List PollInst → List String →
    List String × List (Option (List Sample))
  | [], reg => (reg, [])
  | inst :: rest, reg =>
    let t := tick url inst.avail inst.read inst.prev reg
    let r := pollRound url rest t.2.1
    (r.1, t.2.2 :: r.2)

/-! ## Helper lemmas: funding distributor -/

/-- For a nonzero start index the clause-building loop never panics, and the
final assignment extends the incoming map, per funder, with the clause pairs
of exactly its recipients, in loop order. -/
theorem fundLoopE_ok (start : Nat) (h : start ≠ 0) (v : Int) :
    ∀ (is : List Nat) (m : Nat → List Clause),
      fundLoopE start v is m =
        .ok (fun f => m f ++ ((is.filter (fun j => j % start = f)).flatMap
          (fun j => [⟨j, .vet, v⟩, ⟨j, .vtho, v⟩]))) := by
  intro is
  induction is with
  | nil =>
    intro m
    simp [fundLoopE]
  | cons i is ih =>
    intro m
    simp only [fundLoopE, if_neg h]
    rw [ih]
    congr 1
    funext f
    by_cases hf : i % start = f
    · subst hf
      simp [mapUpdate, List.filter_cons]
    · simp [mapUpdate, Ne.symm hf, List.filter_cons, hf]

/-- The clause-building loop fails exactly when `start = 0` and the loop body
runs at least once (the Go divide-by-zero panic). -/
theorem fundLoopE_error_iff (start : Nat) (v : Int) (is : List Nat)
    (m : Nat → List Clause) :
    (∃ e, fundLoopE start v is m = .error e) ↔ (start = 0 ∧ is ≠ []) := by
  cases is with
  | nil => simp [fundLoopE]
  | cons i is =>
    by_cases h : start = 0
    · simp [fundLoopE, h]
    · rw [fundLoopE_ok start h]
      simp [h]

/-! ## Claim theorems: C1, C9 -/

/-- C1 counterexample: the claim says that for `start = 0` `Fund` fails with
the invalid-start-index error before any transfer.  In the code the guard is
only `start > len(managers)`: with 0 accounts and `start = 0`, `Fund` returns
success (no error at all), and with 1 account and `start = 0` the clause loop
hits the Go divide-by-zero panic from `i % 0` instead of returning the
invalid-start error. -/
theorem fund_start_zero_cex :
    fundBuild 0 0 "a" 0 = .ok (fun _ => []) ∧ fundBuild 1 0 "a" 0 = .divByZero :=
  ⟨rfl, rfl⟩

/-- C1 (amended): `Fund` fails with the "start index is greater than the
number of accounts" error, before any clause is constructed or transaction
submitted, exactly when `start > N`.  For `start = 0` it does not return that
error: with `N > 0` the clause-construction loop panics on `i % 0` (before
any transfer is attempted), and with `N = 0` the call succeeds with an empty
assignment. -/
theorem fund_start_validation (N start : Nat) (amount : String) (junk : Int) :
    (fundBuild N start amount junk = .invalidStart ↔ N < start) ∧
    (start = 0 → 0 < N → fundBuild N start amount junk = .divByZero) ∧
    (start = 0 → N = 0 → fundBuild N start amount junk = .ok (fun _ => [])) := by
  refine ⟨⟨?_, ?_⟩, ?_, ?_⟩
  · intro h
    by_contra hN
    simp only [fundBuild, fundBuildV, if_neg (fun hc => hN hc)] at h
    rcases hres : fundLoopE start ((goSetStringHex amount).getD junk)
        (List.range' start (N - start)) (fun _ => []) with e | m <;>
      rw [hres] at h <;> exact FundOutcome.noConfusion h
  · intro h
    simp [fundBuild, fundBuildV, if_pos h]
  · intro h0 hN
    subst h0
    have hne : List.range' 0 N ≠ [] := by
      simp only [ne_eq, List.range'_eq_nil]
      omega
    obtain ⟨e, he⟩ := (fundLoopE_error_iff 0 ((goSetStringHex amount).getD junk)
      (List.range' 0 N) (fun _ => [])).mpr ⟨rfl, hne⟩
    simp [fundBuild, fundBuildV, Nat.not_lt.mpr (Nat.zero_le N), Nat.sub_zero, he]
  · intro h0 hN
    subst h0; subst hN
    rfl

/-- C1 amended-claim witness: concrete instances of each branch of
`fund_start_validation`. -/
theorem fund_start_validation_witness :
    fundBuild 2 3 "a" 0 = .invalidStart ∧ fundBuild 2 0 "a" 0 = .divByZero :=
  ⟨(fund_start_validation 2 3 "a" 0).1.mpr (by omega),
   (fund_start_validation 2 0 "a" 0).2.1 rfl (by omega)⟩

/-- C9: `Fund` never fails because of the amount argument's format.  The
boolean result of `value.SetString(amount, 16)` is discarded, so whether the
clause-building phase errors is entirely independent of the amount string
(and of the undefined value a failed parse leaves behind); when the parse
fails, clause construction simply proceeds with that leftover value. -/
theorem fund_amount_not_checked :
    (∀ (N start : Nat) (a₁ a₂ : String) (j₁ j₂ : Int),
        (fundBuild N start a₁ j₁).isErr = (fundBuild N start a₂ j₂).isErr) ∧
    (∀ (N start : Nat) (a : String) (j : Int), goSetStringHex a = none →
        fundBuild N start a j = fundBuildV N start j) := by
  constructor
  · have key : ∀ (N start : Nat) (v₁ v₂ : Int),
        (fundBuildV N start v₁).isErr = (fundBuildV N start v₂).isErr := by
      intro N start v₁ v₂
      by_cases hN : N < start
      · simp [fundBuildV, hN]
      · by_cases h0 : start = 0
        · subst h0
          by_cases hE : N = 0
          · subst hE
            rfl
          · have hne : List.range' 0 N ≠ [] := by
              simp only [ne_eq, List.range'_eq_nil]
              omega
            obtain ⟨e₁, he₁⟩ := (fundLoopE_error_iff 0 v₁ (List.range' 0 N)
              (fun _ => [])).mpr ⟨rfl, hne⟩
            obtain ⟨e₂, he₂⟩ := (fundLoopE_error_iff 0 v₂ (List.range' 0 N)
              (fun _ => [])).mpr ⟨rfl, hne⟩
            simp [fundBuildV, hN, Nat.sub_zero, he₁, he₂]
        · have h1 := fundLoopE_ok start h0 v₁ (List.range' start (N - start)) (fun _ => [])
          have h2 := fundLoopE_ok start h0 v₂ (List.range' start (N - start)) (fun _ => [])
          simp [fundBuildV, hN, h1, h2, FundOutcome.isErr]
    intro N start a₁ a₂ j₁ j₂
    exact key N start _ _
  · intro N start a j h
    simp [fundBuild, h]

/-- C9 witness: a non-hexadecimal amount string ("zz") gives the same error
behaviour as a well-formed one ("ff"), and clause construction proceeds with
the leftover junk value. -/
theorem fund_amount_not_checked_witness :
    (fundBuild 3 1 "zz" 7).isErr = (fundBuild 3 1 "ff" 9).isErr ∧
    fundBuild 3 1 "zz" 7 = fundBuildV 3 1 7 :=
  ⟨fund_amount_not_checked.1 3 1 "zz" "ff" 7 9,
   fund_amount_not_checked.2 3 1 "zz" 7 rfl⟩

/-- Counting a single clause in the concatenated clause pairs of a duplicate-free
recipient list: each listed recipient contributes its pair exactly once. -/
theorem count_flatMap_pairs (v : Int) (i : Nat) (k : AssetKind) :
    ∀ R : List Nat, R.Nodup → i ∈ R →
      ((R.flatMap (fun j => [⟨j, .vet, v⟩, ⟨j, .vtho, v⟩])).count
        (⟨i, k, v⟩ : Clause)) = 1 := by
  intro R
  induction R with
  | nil => intro _ hi; cases hi
  | cons j R ih =>
    intro hnd hi
    rw [List.flatMap_cons, List.count_append]
    rcases List.mem_cons.mp hi with rfl | hi
    · have hnotin : i ∉ R := (List.nodup_cons.mp hnd).1
      have hz : ((R.flatMap (fun j => [⟨j, .vet, v⟩, ⟨j, .vtho, v⟩])).count
          (⟨i, k, v⟩ : Clause)) = 0 := by
        rw [List.count_eq_zero]
        intro hmem
        obtain ⟨j', hj', hc⟩ := List.mem_flatMap.mp hmem
        have hj'i : j' = i := by
          rcases (by simpa using hc : (⟨i, k, v⟩ : Clause) = ⟨j', .vet, v⟩ ∨
              (⟨i, k, v⟩ : Clause) = ⟨j', .vtho, v⟩) with hcc | hcc <;>
            exact (congrArg Clause.recipient hcc).symm
        exact hnotin (hj'i ▸ hj')
      rw [hz]
      cases k <;> simp [List.count_cons]
    · have hji : j ≠ i := fun h => (List.nodup_cons.mp hnd).1 (h ▸ hi)
      have hz : (([⟨j, .vet, v⟩, ⟨j, .vtho, v⟩] : List Clause).count
          (⟨i, k, v⟩ : Clause)) = 0 := by
        rw [List.count_eq_zero]
        intro hmem
        rcases (by simpa using hmem : (⟨i, k, v⟩ : Clause) = ⟨j, .vet, v⟩ ∨
            (⟨i, k, v⟩ : Clause) = ⟨j, .vtho, v⟩) with hcc | hcc <;>
          exact hji (congrArg Clause.recipient hcc).symm
      rw [hz, ih (List.nodup_cons.mp hnd).2 hi]

/-- Doubling each element of a strictly increasing list yields a
nondecreasing list. -/
theorem pairwise_le_pairs :
    ∀ R : List Nat, R.Pairwise (· < ·) →
      (R.flatMap (fun j => [j, j])).Pairwise (fun a b => a ≤ b) := by
  intro R
  induction R with
  | nil => intro _; simp
  | cons j R ih =>
    intro h
    obtain ⟨hj, hR⟩ := List.pairwise_cons.mp h
    rw [List.flatMap_cons]
    rw [List.pairwise_append]
    refine ⟨by simp, ih hR, ?_⟩
    intro x hx y hy
    have hxj : x = j := by simpa using hx
    obtain ⟨j', hj', hy'⟩ := List.mem_flatMap.mp hy
    have hyj : y = j' := by simpa using hy'
    rw [hxj, hyj]
    exact Nat.le_of_lt (hj j' hj')

/-- C2: for `0 < start ≤ N`, `Fund` builds an assignment in which every
recipient index `i ∈ [start, N)` belongs to funder `i % start < start`,
receives exactly one VET and one VTHO clause (both for the parsed amount) in
that funder's sequence, appears under no other funder, and each funder's
sequence lists recipients in nondecreasing (insertion) order of index. -/
theorem fund_assignment_spec (N start : Nat) (amount : String) (junk : Int)
    (h0 : 0 < start) (hN : start ≤ N) :
    ∃ A, fundBuild N start amount junk = .ok A ∧
      ((∀ i, start ≤ i → i < N →
          i % start < start ∧
          (A (i % start)).count ⟨i, .vet, (goSetStringHex amount).getD junk⟩ = 1 ∧
          (A (i % start)).count ⟨i, .vtho, (goSetStringHex amount).getD junk⟩ = 1) ∧
       (∀ f c, c ∈ A f → start ≤ c.recipient ∧ c.recipient < N ∧
          f = c.recipient % start ∧ c.amount = (goSetStringHex amount).getD junk) ∧
       (∀ f, ((A f).map Clause.recipient).Pairwise (fun a b => a ≤ b))) := by
  set v := (goSetStringHex amount).getD junk with hv
  refine ⟨fun f => ((List.range' start (N - start)).filter
      (fun j => j % start = f)).flatMap (fun j => [⟨j, .vet, v⟩, ⟨j, .vtho, v⟩]),
    ?_, ?_, ?_, ?_⟩
  · have h := fundLoopE_ok start (by omega) v (List.range' start (N - start)) (fun _ => [])
    simp only [fundBuild, fundBuildV, if_neg (by omega : ¬ N < start), ← hv, h]
    congr 1
  · intro i hi1 hi2
    have him : i ∈ (List.range' start (N - start)).filter
        (fun j => decide (j % start = i % start)) := by
      rw [List.mem_filter]
      exact ⟨List.mem_range'_1.mpr ⟨hi1, by omega⟩, by simp⟩
    have hnd : ((List.range' start (N - start)).filter
        (fun j => decide (j % start = i % start))).Nodup :=
      (List.nodup_range' start (N - start)).filter _
    exact ⟨Nat.mod_lt i h0, count_flatMap_pairs v i .vet _ hnd him,
      count_flatMap_pairs v i .vtho _ hnd him⟩
  · intro f c hc
    obtain ⟨j, hj, hcj⟩ := List.mem_flatMap.mp hc
    obtain ⟨hjr, hjf⟩ := List.mem_filter.mp hj
    have hjr' := List.mem_range'_1.mp hjr
    have hjf' : j % start = f := by simpa using hjf
    have hjN : j < N := by omega
    rcases (by simpa using hcj : c = ⟨j, .vet, v⟩ ∨ c = ⟨j, .vtho, v⟩) with rfl | rfl <;>
      exact ⟨hjr'.1, hjN, hjf'.symm, rfl⟩
  · intro f
    have hP : ((List.range' start (N - start)).filter
        (fun j => decide (j % start = f))).Pairwise (· < ·) :=
      (List.pairwise_lt_range' start (N - start)).filter _
    rw [List.map_flatMap]
    have hfun : (fun j => List.map Clause.recipient
        [(⟨j, .vet, v⟩ : Clause), ⟨j, .vtho, v⟩]) = fun j => [j, j] := by
      funext j; rfl
    rw [hfun]
    exact pairwise_le_pairs _ hP

/-- C2 witness: the spec's end-to-end scenario, 12 accounts with start index
10 (funders 0-9, recipients 10 and 11). -/
theorem fund_assignment_spec_witness :
    ∃ A, fundBuild 12 10 "5" 0 = .ok A ∧
      ((∀ i, 10 ≤ i → i < 12 →
          i % 10 < 10 ∧
          (A (i % 10)).count ⟨i, .vet, (goSetStringHex "5").getD 0⟩ = 1 ∧
          (A (i % 10)).count ⟨i, .vtho, (goSetStringHex "5").getD 0⟩ = 1) ∧
       (∀ f c, c ∈ A f → 10 ≤ c.recipient ∧ c.recipient < 12 ∧
          f = c.recipient % 10 ∧ c.amount = (goSetStringHex "5").getD 0) ∧
       (∀ f, ((A f).map Clause.recipient).Pairwise (fun a b => a ≤ b))) :=
  fund_assignment_spec 12 10 "5" 0 (by omega) (by omega)

/-! ## Helper lemmas: batch partitioning -/

/-- Concatenating the batches reconstructs the clause sequence. -/
theorem batches_flatten {α : Type} : ∀ cs : List α, (batches cs).flatten = cs := by
  have H : ∀ (n : Nat) (cs : List α), cs.length ≤ n → (batches cs).flatten = cs := by
    intro n
    induction n with
    | zero =>
      intro cs h
      have : cs = [] := List.eq_nil_of_length_eq_zero (Nat.le_zero.mp h)
      subst this
      simp [batches]
    | succ n ih =>
      intro cs h
      match cs with
      | [] => simp [batches]
      | c :: cs' =>
        simp only [batches, List.flatten_cons]
        rw [ih ((c :: cs').drop 100) (by simp at h ⊢; omega)]
        exact List.take_append_drop 100 (c :: cs')
  intro cs
  exact H cs.length cs le_rfl

/-- The number of batches is the ceiling of the clause count over 100. -/
theorem batches_length {α : Type} : ∀ cs : List α,
    (batches cs).length = (cs.length + 99) / 100 := by
  have H : ∀ (n : Nat) (cs : List α), cs.length ≤ n →
      (batches cs).length = (cs.length + 99) / 100 := by
    intro n
    induction n with
    | zero =>
      intro cs h
      have : cs = [] := List.eq_nil_of_length_eq_zero (Nat.le_zero.mp h)
      subst this
      simp [batches]
    | succ n ih =>
      intro cs h
      match cs with
      | [] => simp [batches]
      | c :: cs' =>
        simp only [batches, List.length_cons]
        rw [ih ((c :: cs').drop 100) (by simp at h ⊢; omega)]
        simp only [List.length_drop, List.length_cons]
        omega
  intro cs
  exact H cs.length cs le_rfl

/-- Every batch is nonempty and holds at most 100 clauses. -/
theorem batches_mem {α : Type} : ∀ (cs : List α) (b : List α), b ∈ batches cs →
    b ≠ [] ∧ b.length ≤ 100 := by
  have H : ∀ (n : Nat) (cs : List α), cs.length ≤ n → ∀ b ∈ batches cs,
      b ≠ [] ∧ b.length ≤ 100 := by
    intro n
    induction n with
    | zero =>
      intro cs h
      have : cs = [] := List.eq_nil_of_length_eq_zero (Nat.le_zero.mp h)
      subst this
      simp [batches]
    | succ n ih =>
      intro cs h b hb
      match cs with
      | [] => simp [batches] at hb
      | c :: cs' =>
        simp only [batches, List.mem_cons] at hb
        rcases hb with rfl | hb
        · constructor
          · have : 0 < (List.take 100 (c :: cs')).length := by
              rw [List.length_take]
              simp
            exact List.ne_nil_of_length_pos this
          · rw [List.length_take]
            omega
        · exact ih ((c :: cs').drop 100) (by simp at h ⊢; omega) b hb
  intro cs
  exact H cs.length cs le_rfl

/-- Every batch except possibly the last holds exactly 100 clauses. -/
theorem batches_dropLast {α : Type} : ∀ (cs : List α) (b : List α),
    b ∈ (batches cs).dropLast → b.length = 100 := by
  have H : ∀ (n : Nat) (cs : List α), cs.length ≤ n →
      ∀ b ∈ (batches cs).dropLast, b.length = 100 := by
    intro n
    induction n with
    | zero =>
      intro cs h
      have : cs = [] := List.eq_nil_of_length_eq_zero (Nat.le_zero.mp h)
      subst this
      simp [batches]
    | succ n ih =>
      intro cs h b hb
      match cs with
      | [] => simp [batches] at hb
      | c :: cs' =>
        simp only [batches] at hb
        cases hdrop : (c :: cs').drop 100 with
        | nil =>
          rw [hdrop] at hb
          simp [batches] at hb
        | cons d ds =>
          rw [hdrop] at hb
          have hne : batches (d :: ds) ≠ [] := by
            simp [batches]
          rw [List.dropLast_cons_of_ne_nil hne, List.mem_cons] at hb
          rcases hb with rfl | hb
          · have hlen : 100 < (c :: cs').length := by
              have := congrArg List.length hdrop
              simp only [List.length_drop] at this
              simp only [List.length_cons] at this ⊢
              omega
            rw [List.length_take]
            omega
          · exact ih ((c :: cs').drop 100) (by simp at h ⊢; omega) b (by rw [hdrop]; exact hb)
  intro cs
  exact H cs.length cs le_rfl

/-- C3: each worker partitions its `k` clauses into exactly `ceil(k / 100)`
(`= (k + 99) / 100`) consecutive batches; every batch is nonempty with at
most 100 clauses, every batch except possibly the last has exactly 100, and
concatenating the batches in submission order reconstructs the original
clause sequence.  (Proved for every `k`, which subsumes the claim's
`k > 0`.) -/
theorem batches_partition (cs : List Clause) :
    (batches cs).length = (cs.length + 99) / 100 ∧
    (∀ b ∈ (batches cs).dropLast, b.length = 100) ∧
    (∀ b ∈ batches cs, b ≠ [] ∧ b.length ≤ 100) ∧
    (batches cs).flatten = cs :=
  ⟨batches_length cs, fun b hb => batches_dropLast cs b hb,
   fun b hb => batches_mem cs b hb, batches_flatten cs⟩

/-- C3 witness: a concrete 150-clause sequence splits into two batches that
concatenate back to the original. -/
theorem batches_partition_witness :
    (batches (List.replicate 150 (⟨0, AssetKind.vet, 1⟩ : Clause))).length = 2 ∧
    (batches (List.replicate 150 (⟨0, AssetKind.vet, 1⟩ : Clause))).flatten =
      List.replicate 150 ⟨0, AssetKind.vet, 1⟩ := by
  have h := batches_partition (List.replicate 150 (⟨0, AssetKind.vet, 1⟩ : Clause))
  refine ⟨?_, h.2.2.2⟩
  rw [h.1]
  simp

/-! ## Claim theorems: C4 (worker failure semantics) -/

/-- C4: per-worker failure semantics of `Fund`.  (a) With no failing batch a
worker submits and confirms every batch.  (b) If batch `j` is the first to
fail, the confirmed batches are exactly the first `j` (a prefix — nothing is
rolled back) and the failure is recorded.  (c) After the first failure the
worker never consults (so never submits) any later batch: the run is
unchanged under arbitrary modification of the oracle beyond the failing
index.  (d) `Fund` reports a non-nil error exactly when at least one worker
recorded a failure.  (e) A worker's outcome is independent of the other
workers' oracles: failures elsewhere roll nothing back for this funder. -/
theorem fund_failure_semantics :
    (∀ (step : Nat → Option String) (bs : List (List Clause)) (j0 : Nat),
        (∀ j, j < bs.length → step (j0 + j) = none) →
        runBatches step j0 bs = (bs, none)) ∧
    (∀ (step : Nat → Option String) (bs : List (List Clause)) (j0 j : Nat) (e : String),
        j < bs.length → (∀ j', j' < j → step (j0 + j') = none) → step (j0 + j) = some e →
        runBatches step j0 bs = (bs.take j, some e)) ∧
    (∀ (step1 step2 : Nat → Option String) (bs : List (List Clause)) (j0 j : Nat) (e : String),
        j < bs.length → (∀ j', j' < j → step1 (j0 + j') = none) → step1 (j0 + j) = some e →
        (∀ j', j' ≤ j → step2 (j0 + j') = step1 (j0 + j')) →
        runBatches step2 j0 bs = runBatches step1 j0 bs) ∧
    (∀ (oracle : Nat → Nat → Option String) (funders : List Nat) (A : Nat → List Clause),
        fundError oracle funders A = true ↔
          ∃ f ∈ funders, (runBatches (oracle f) 0 (batches (A f))).2.isSome = true) ∧
    (∀ (o1 o2 : Nat → Nat → Option String) (funders : List Nat) (A : Nat → List Clause)
        (f : Nat), o1 f = o2 f →
        (fundWorkers o1 funders A).filter (fun p => p.1 = f) =
          (fundWorkers o2 funders A).filter (fun p => p.1 = f)) := by
  refine ⟨?_, ?_, ?_, ?_, ?_⟩
  · intro step bs
    induction bs with
    | nil => intro j0 _; rfl
    | cons b rest ih =>
      intro j0 h
      have h0 : step j0 = none := by
        have := h 0 (by simp)
        simpa using this
      simp only [runBatches, h0]
      rw [ih (j0 + 1) (fun j hj => by
        have := h (j + 1) (by simp; omega)
        rwa [Nat.add_comm j 1, ← Nat.add_assoc] at this)]
  · intro step bs
    induction bs with
    | nil => intro j0 j e h; simp at h
    | cons b rest ih =>
      intro j0 j e hj hfirst hfail
      cases j with
      | zero =>
        simp only [Nat.add_zero] at hfail
        simp [runBatches, hfail]
      | succ j =>
        have h0 : step j0 = none := by
          have := hfirst 0 (by omega)
          simpa using this
        simp only [runBatches, h0, List.take_succ_cons]
        rw [ih (j0 + 1) j e (by simpa using hj)
          (fun j' hj' => by
            have := hfirst (j' + 1) (by omega)
            rwa [Nat.add_comm j' 1, ← Nat.add_assoc] at this)
          (by rwa [Nat.add_comm j 1, ← Nat.add_assoc] at hfail)]
  · intro step1 step2 bs
    induction bs with
    | nil => intro j0 j e h; simp at h
    | cons b rest ih =>
      intro j0 j e hj hfirst hfail hagree
      cases j with
      | zero =>
        have h2 : step2 j0 = step1 j0 := by
          have := hagree 0 (by omega)
          simpa using this
        simp only [Nat.add_zero] at hfail
        simp [runBatches, h2, hfail]
      | succ j =>
        have h0 : step1 j0 = none := by
          have := hfirst 0 (by omega)
          simpa using this
        have h2 : step2 j0 = step1 j0 := by
          have := hagree 0 (by omega)
          simpa using this
        simp only [runBatches, h2, h0]
        rw [ih (j0 + 1) j e (by simpa using hj)
          (fun j' hj' => by
            have := hfirst (j' + 1) (by omega)
            rwa [Nat.add_comm j' 1, ← Nat.add_assoc] at this)
          (by rwa [Nat.add_comm j 1, ← Nat.add_assoc] at hfail)
          (fun j' hj' => by
            have := hagree (j' + 1) (by omega)
            rwa [Nat.add_comm j' 1, ← Nat.add_assoc] at this)]
  · intro oracle funders A
    simp only [fundError, fundWorkers, List.any_eq_true, List.mem_map]
    constructor
    · rintro ⟨p, ⟨f, hf, rfl⟩, hp⟩
      exact ⟨f, hf, hp⟩
    · rintro ⟨f, hf, hp⟩
      exact ⟨(f, runBatches (oracle f) 0 (batches (A f))), ⟨f, hf, rfl⟩, hp⟩
  · intro o1 o2 funders A f hf
    induction funders with
    | nil => rfl
    | cons g funders ih =>
      simp only [fundWorkers, List.map_cons, List.filter_cons] at ih ⊢
      by_cases hg : g = f
      · subst hg
        simp [hf, ih]
      · simp [hg, ih]

/-- C4 witness: a worker whose second batch fails confirms exactly its first
batch, records the failure, and `Fund` surfaces an error for that funder
set. -/
theorem fund_failure_semantics_witness :
    runBatches (fun j => if j = 1 then some "boom" else none) 0
        [[⟨10, AssetKind.vet, 1⟩], [⟨11, AssetKind.vet, 1⟩], [⟨12, AssetKind.vet, 1⟩]] =
      ([[⟨10, AssetKind.vet, 1⟩]], some "boom") := by
  have h := fund_failure_semantics.2.1 (fun j => if j = 1 then some "boom" else none)
    [[⟨10, AssetKind.vet, 1⟩], [⟨11, AssetKind.vet, 1⟩], [⟨12, AssetKind.vet, 1⟩]]
    0 1 "boom" (by decide)
    (fun j' hj' => by
      have : j' = 0 := by omega
      subst this
      rfl)
    rfl
  simpa using h

/-! ## Helper lemmas: decimal rendering and tick behaviour -/

/-- Character value of a decimal digit. -/
theorem digitChar_toNat : ∀ d, d < 10 → (digitChar d).toNat = 48 + d := by decide

/-- With fuel above the argument, evaluating the produced digits recovers the
number. -/
theorem decVal_decCharsCore : ∀ (fuel n : Nat), n < fuel →
    decVal (decCharsCore fuel n) = n := by
  intro fuel
  induction fuel with
  | zero => intro n h; omega
  | succ fuel ih =>
    intro n h
    rw [decCharsCore]
    by_cases h10 : n < 10
    · rw [if_pos h10]
      simp only [decVal, List.foldl_cons, List.foldl_nil]
      rw [digitChar_toNat n h10]
      omega
    · rw [if_neg h10]
      have hdiv : n / 10 < fuel := by omega
      have hmod : n % 10 < 10 := Nat.mod_lt n (by omega)
      simp only [decVal, List.foldl_append, List.foldl_cons, List.foldl_nil]
      have hv := ih (n / 10) hdiv
      simp only [decVal] at hv
      rw [hv, digitChar_toNat (n % 10) hmod]
      omega

/-- Evaluating the decimal rendering recovers the number. -/
theorem decVal_decChars (n : Nat) : decVal (decChars n) = n :=
  decVal_decCharsCore (n + 1) n (Nat.lt_succ_self n)

/-- The decimal rendering is injective. -/
theorem decRepr_injective (m n : Nat) (h : decRepr m = decRepr n) : m = n := by
  have hdata : decChars m = decChars n := congrArg String.data h
  have hval := congrArg decVal hdata
  rwa [decVal_decChars, decVal_decChars] at hval

/-- Two dedup keys for the same endpoint agree only on the same block
number. -/
theorem key_injective (url : String) (m n : Nat)
    (h : url ++ decRepr m = url ++ decRepr n) : m = n := by
  have hdata := congrArg String.data h
  rw [String.data_append, String.data_append] at hdata
  have hcancel := List.append_cancel_left hdata
  have h2 : decRepr m = decRepr n := congrArg String.mk hcancel
  exact decRepr_injective m n h2

/-- The stored previous block number never decreases across a tick. -/
theorem tick_prev_le (url : String) (avail : Bool) (read : Option Block)
    (prev : Block) (reg : List String) :
    prev.number ≤ (tick url avail read prev reg).1.number := by
  cases read with
  | none => simp [tick]
  | some b =>
    by_cases h : prev.number < b.number
    · cases avail with
      | false => simp [tick, h, Nat.le_of_lt h]
      | true =>
        by_cases hm : (url ++ decRepr b.number) ∈ reg
        · simp [tick, h, hm, Nat.le_of_lt h]
        · simp [tick, h, hm, Nat.le_of_lt h]
    · simp [tick, h]

/-- Any key present in the registry after a tick was either already present
or is the dedup key of the strictly newer block this tick observed. -/
theorem tick_reg_mem (url : String) (avail : Bool) (read : Option Block)
    (prev : Block) (reg : List String) (k : String) :
    k ∈ (tick url avail read prev reg).2.1 →
      k ∈ reg ∨ ∃ b, read = some b ∧ prev.number < b.number ∧
        k = url ++ decRepr b.number := by
  cases read with
  | none => intro hk; exact Or.inl (by simpa [tick] using hk)
  | some b =>
    by_cases h : prev.number < b.number
    · cases avail with
      | false => intro hk; exact Or.inl (by simpa [tick, h] using hk)
      | true =>
        by_cases hm : (url ++ decRepr b.number) ∈ reg
        · intro hk; exact Or.inl (by simpa [tick, h, hm] using hk)
        · intro hk
          have hmem : k ∈ (url ++ decRepr b.number) :: reg := by
            simpa [tick, h, hm] using hk
          rcases List.mem_cons.mp hmem with rfl | hk'
          · exact Or.inr ⟨b, rfl, h, rfl⟩
          · exact Or.inl hk'
    · intro hk; exact Or.inl (by simpa [tick, h] using hk)

/-- The stored previous block number never decreases across a run of
ticks. -/
theorem runTicks_prev_le (url : String) : ∀ (steps : List (Bool × Option Block))
    (prev : Block) (reg : List String),
    prev.number ≤ (runTicks url steps prev reg).1.number := by
  intro steps
  induction steps with
  | nil => intro prev reg; exact le_rfl
  | cons s rest ih =>
    intro prev reg
    simp only [runTicks]
    exact le_trans (tick_prev_le url s.1 s.2 prev reg) (ih _ _)

/-- Any key present in the registry after a run of ticks was either already
present or is the dedup key of a block strictly newer than the starting
stored previous block. -/
theorem runTicks_reg_mem (url : String) : ∀ (steps : List (Bool × Option Block))
    (prev : Block) (reg : List String) (k : String),
    k ∈ (runTicks url steps prev reg).2 →
      k ∈ reg ∨ ∃ m, prev.number < m ∧ k = url ++ decRepr m := by
  intro steps
  induction steps with
  | nil =>
    intro prev reg k hk
    exact Or.inl (by simpa [runTicks] using hk)
  | cons s rest ih =>
    intro prev reg k hk
    simp only [runTicks] at hk
    rcases ih _ _ k hk with hk' | ⟨m, hm, rfl⟩
    · rcases tick_reg_mem url s.1 s.2 prev reg k hk' with hmem | ⟨b, _, hb, rfl⟩
      · exact Or.inl hmem
      · exact Or.inr ⟨b.number, hb, rfl⟩
    · exact Or.inr ⟨m, lt_of_le_of_lt (tick_prev_le url s.1 s.2 prev reg) hm, rfl⟩

/-! ## Claim theorems: C5, C7, C8, C10 -/

/-- C5 counterexample: a tick that observes a strictly greater block number
(2 > 1) with the dedup key absent from the registry, but with the VU state
unavailable.  The claim says the key is inserted and emission proceeds;
the code skips both — the registry is unchanged and nothing is emitted. -/
theorem tick_dedup_unavail_cex :
    tick "u" false (some ⟨2, 105, 20, 7, 8⟩) ⟨1, 100, 5, 0, 0⟩ [] =
      (⟨2, 105, 20, 7, 8⟩, [], none) := by
  decide

/-- C5 (amended): on a tick that observes a strictly greater block number
while the VU state is available, the poller forms the dedup key as the
endpoint identity concatenated with the decimal rendering of the block
number and performs the (atomic) check-and-insert: if the key is already
present nothing is emitted, otherwise the key is inserted and the
four-sample group is emitted.  When the VU state is unavailable, neither the
check-and-insert nor the emission happens. -/
theorem tick_dedup_gate (url : String) (blk prev : Block) (reg : List String)
    (h : prev.number < blk.number) :
    ((url ++ decRepr blk.number) ∈ reg →
        tick url true (some blk) prev reg = (blk, reg, none)) ∧
    ((url ++ decRepr blk.number) ∉ reg →
        tick url true (some blk) prev reg =
          (blk, (url ++ decRepr blk.number) :: reg,
            some (blockSamples blk
              ((blk.txs : ℚ) / (((blk.timestamp : Int) - (prev.timestamp : Int)) : ℚ))
              ((blk.timestamp : Int) - (prev.timestamp : Int))))) ∧
    tick url false (some blk) prev reg = (blk, reg, none) := by
  refine ⟨?_, ?_, ?_⟩
  · intro hm
    simp [tick, h, hm]
  · intro hm
    simp [tick, h, hm]
  · simp [tick, h]

/-- C5 amended-claim witness: with the dedup key already present the tick
emits nothing and leaves the registry unchanged; with it absent the key is
inserted and the sample group emitted. -/
theorem tick_dedup_gate_witness :
    tick "u" true (some ⟨2, 105, 20, 7, 8⟩) ⟨1, 100, 5, 0, 0⟩ ["u2"] =
      (⟨2, 105, 20, 7, 8⟩, ["u2"], none) :=
  (tick_dedup_gate "u" ⟨2, 105, 20, 7, 8⟩ ⟨1, 100, 5, 0, 0⟩ ["u2"]
    (by decide)).1 (by decide)

/-- C7: each poller instance's single stored previous block never decreases,
is replaced only on a tick whose head read is strictly newer (and then
becomes exactly that head block), a tick whose head equals the stored number
changes nothing and emits nothing, and over any run of ticks the stored
number is monotone. -/
theorem tick_prev_monotonic (url : String) (avail : Bool) (read : Option Block)
    (prev : Block) (reg : List String) :
    prev.number ≤ (tick url avail read prev reg).1.number ∧
    ((tick url avail read prev reg).1 ≠ prev →
      ∃ b, read = some b ∧ prev.number < b.number ∧
        (tick url avail read prev reg).1 = b) ∧
    (∀ b, read = some b → b.number = prev.number →
      tick url avail read prev reg = (prev, reg, none)) ∧
    (∀ steps, prev.number ≤ (runTicks url steps prev reg).1.number) := by
  refine ⟨tick_prev_le url avail read prev reg, ?_, ?_, ?_⟩
  · intro hne
    cases read with
    | none =>
      exact absurd (show (tick url avail none prev reg).1 = prev by simp [tick]) hne
    | some b =>
      by_cases h : prev.number < b.number
      · refine ⟨b, rfl, h, ?_⟩
        cases avail with
        | false => simp [tick, h]
        | true =>
          by_cases hm : (url ++ decRepr b.number) ∈ reg
          · simp [tick, h, hm]
          · simp [tick, h, hm]
      · exact absurd
          (show (tick url avail (some b) prev reg).1 = prev by simp [tick, h]) hne
  · intro b hb heq
    subst hb
    have h : ¬ prev.number < b.number := by omega
    simp [tick, h]
  · intro steps
    exact runTicks_prev_le url steps prev reg

/-- C7 witness: a tick whose head read carries the stored block number (5)
leaves the stored block untouched and emits nothing. -/
theorem tick_prev_monotonic_witness :
    tick "u" true (some ⟨5, 1, 2, 3, 4⟩) ⟨5, 7, 8, 9, 10⟩ [] =
      (⟨5, 7, 8, 9, 10⟩, [], none) :=
  (tick_prev_monotonic "u" true (some ⟨5, 1, 2, 3, 4⟩) ⟨5, 7, 8, 9, 10⟩ []).2.2.1
    ⟨5, 1, 2, 3, 4⟩ rfl rfl

/-- C8: on a tick observing a strictly greater, not-yet-reported block with
VU state available, the poller emits the sample group whose TPS sample value
is `transaction_count(new) / (timestamp(new) - timestamp(previous))`, the
elapsed time being the exact timestamp difference in seconds. -/
theorem tick_tps (url : String) (blk prev : Block) (reg : List String)
    (h : prev.number < blk.number) (hk : (url ++ decRepr blk.number) ∉ reg) :
    (tick url true (some blk) prev reg).2.2 =
      some (blockSamples blk
        ((blk.txs : ℚ) / (((blk.timestamp : Int) - (prev.timestamp : Int)) : ℚ))
        ((blk.timestamp : Int) - (prev.timestamp : Int))) ∧
    ∃ g, (tick url true (some blk) prev reg).2.2 = some g ∧
      g[2]? = some ⟨"vechain_tps", [],
        (blk.txs : ℚ) / (((blk.timestamp : Int) - (prev.timestamp : Int)) : ℚ)⟩ := by
  have ht : tick url true (some blk) prev reg =
      (blk, (url ++ decRepr blk.number) :: reg,
        some (blockSamples blk
          ((blk.txs : ℚ) / (((blk.timestamp : Int) - (prev.timestamp : Int)) : ℚ))
          ((blk.timestamp : Int) - (prev.timestamp : Int)))) := by
    simp [tick, h, hk]
  refine ⟨by rw [ht], ⟨_, by rw [ht], ?_⟩⟩
  simp [blockSamples]

/-- C8 witness: the spec's concrete instance — previous block
{timestamp 100, txs 5}, new block {timestamp 105, txs 20} — yields
tps = 20 / 5 = 4. -/
theorem tick_tps_witness :
    (tick "u" true (some ⟨2, 105, 20, 7, 8⟩) ⟨1, 100, 5, 0, 0⟩ []).2.2 =
      some (blockSamples ⟨2, 105, 20, 7, 8⟩ 4 5) := by
  have h := (tick_tps "u" ⟨2, 105, 20, 7, 8⟩ ⟨1, 100, 5, 0, 0⟩ []
    (by decide) (by decide)).1
  rw [h]
  norm_num

/-- C10: on a tick that observes a strictly greater block number while the
VU state is unavailable, the poller still replaces its stored previous block
with the new head but performs no dedup-registry insertion and emits no
samples; and in the instance's entire subsequent life its observed numbers
only grow past this one, so this (endpoint, block number) key is never
recorded in the registry by this instance. -/
theorem tick_state_unavailable (url : String) (blk prev : Block)
    (reg : List String) (h : prev.number < blk.number) :
    tick url false (some blk) prev reg = (blk, reg, none) ∧
    (∀ (steps : List (Bool × Option Block)) (reg' : List String),
      (url ++ decRepr blk.number) ∉ reg' →
      (url ++ decRepr blk.number) ∉ (runTicks url steps blk reg').2) := by
  constructor
  · simp [tick, h]
  · intro steps reg' hreg hmem
    rcases runTicks_reg_mem url steps blk reg' _ hmem with hold | ⟨m, hm, hkey⟩
    · exact hreg hold
    · have := key_injective url blk.number m hkey
      omega

/-- C10 witness: a state-unavailable tick observing block 2 updates the
stored block only, and a later emitting tick of the same instance (block 3)
never records the key for block 2. -/
theorem tick_state_unavailable_witness :
    tick "u" false (some ⟨2, 105, 20, 7, 8⟩) ⟨1, 100, 5, 0, 0⟩ [] =
      (⟨2, 105, 20, 7, 8⟩, [], none) ∧
    ("u" ++ decRepr 2) ∉
      (runTicks "u" [(true, some ⟨3, 110, 2, 0, 0⟩)] ⟨2, 105, 20, 7, 8⟩ []).2 := by
  have h := tick_state_unavailable "u" ⟨2, 105, 20, 7, 8⟩ ⟨1, 100, 5, 0, 0⟩ []
    (by decide)
  exact ⟨h.1, h.2 [(true, some ⟨3, 110, 2, 0, 0⟩)] [] (by decide)⟩

/-! ## Claim theorems: C6 (dedup idempotence across concurrent pollers) -/

/-- Unfolding of one serialized instance step of a poll round. -/
theorem pollRound_cons (url : String) (inst : PollInst) (rest : List PollInst)
    (reg : List String) :
    pollRound url (inst :: rest) reg =
      ((pollRound url rest (tick url inst.avail inst.read inst.prev reg).2.1).1,
       (tick url inst.avail inst.read inst.prev reg).2.2 ::
         (pollRound url rest (tick url inst.avail inst.read inst.prev reg).2.1).2) := rfl

/-- Once the dedup key of the new block is registered, a round of instances
that stored the old block and read nothing newer than the new block emits
nothing and leaves the registry unchanged. -/
theorem pollRound_key_present (url : String) (bOld bNew : Block)
    (hlt : bOld.number < bNew.number) :
    ∀ (insts : List PollInst) (reg : List String),
      (∀ inst ∈ insts, inst.prev = bOld) →
      (∀ inst ∈ insts, inst.read = none ∨ inst.read = some bOld ∨ inst.read = some bNew) →
      (url ++ decRepr bNew.number) ∈ reg →
      pollRound url insts reg = (reg, insts.map fun _ => none) := by
  intro insts
  induction insts with
  | nil => intro reg _ _ _; rfl
  | cons inst rest ih =>
    intro reg hprev hread hkey
    have hp : inst.prev = bOld := hprev inst (by simp)
    have ht : (tick url inst.avail inst.read inst.prev reg).2.1 = reg ∧
        (tick url inst.avail inst.read inst.prev reg).2.2 = none := by
      rcases hread inst (by simp) with hr | hr | hr
      · rw [hr]
        exact ⟨rfl, rfl⟩
      · rw [hr, hp]
        constructor <;> simp [tick]
      · rw [hr, hp]
        cases havail : inst.avail
        · constructor <;> simp [tick, hlt]
        · constructor <;> simp [tick, hlt, hkey]
    rw [pollRound_cons, ht.1, ht.2,
      ih reg (fun i hi => hprev i (List.mem_cons_of_mem _ hi))
        (fun i hi => hread i (List.mem_cons_of_mem _ hi)) hkey]
    rfl

/-- C6 counterexample: one poller instance (M = 1) observes the transition to
block 4 while its VU state is unavailable; zero sample groups are emitted,
where the claim requires exactly one regardless of M. -/
theorem pollRound_unavail_cex :
    ((pollRound "u" [⟨⟨3, 100, 5, 0, 0⟩, false, some ⟨4, 105, 20, 0, 0⟩⟩] []).2.countP
      (fun em => em.isSome)) = 0 := by
  decide

/-- C6 (amended): for any number of concurrent poller instances sharing one
endpoint that all stored the old head block `b` and, on this round, each
either fails its read or reads the old head or the new head `b+1` (strictly
newer), with the new head's dedup key not yet registered: exactly one
four-sample group is emitted when at least one instance reads the new head
with VU state available, and zero groups otherwise — never more than one,
regardless of the instance count and of the serialization order; the key is
registered exactly when a group is emitted. -/
theorem pollRound_dedup (url : String) (bOld bNew : Block)
    (hlt : bOld.number < bNew.number) :
    ∀ (insts : List PollInst) (reg : List String),
      (∀ inst ∈ insts, inst.prev = bOld) →
      (∀ inst ∈ insts, inst.read = none ∨ inst.read = some bOld ∨ inst.read = some bNew) →
      (url ++ decRepr bNew.number) ∉ reg →
      ((pollRound url insts reg).2.countP (fun em => em.isSome) =
        if insts.any (fun i => i.avail && i.read == some bNew) then 1 else 0) ∧
      (∀ em ∈ (pollRound url insts reg).2, ∀ g, em = some g → g.length = 4) ∧
      ((pollRound url insts reg).1 =
        if insts.any (fun i => i.avail && i.read == some bNew) then
          (url ++ decRepr bNew.number) :: reg else reg) := by
  have hne : bOld ≠ bNew := fun h => by rw [h] at hlt; exact lt_irrefl _ hlt
  intro insts
  induction insts with
  | nil =>
    intro reg _ _ _
    exact ⟨by simp [pollRound], by simp [pollRound], by simp [pollRound]⟩
  | cons inst rest ih =>
    intro reg hprev hread hkey
    have hp : inst.prev = bOld := hprev inst (by simp)
    have hprev' := fun i hi => hprev i (List.mem_cons_of_mem _ hi)
    have hread' := fun i hi => hread i (List.mem_cons_of_mem _ hi)
    rcases hread inst (by simp) with hr | hr | hr
    · -- read failure on this tick
      have ht : tick url inst.avail inst.read inst.prev reg = (inst.prev, reg, none) := by
        rw [hr]
        rfl
      obtain ⟨ih1, ih2, ih3⟩ := ih reg hprev' hread' hkey
      rw [pollRound_cons, ht]
      refine ⟨?_, ?_, ?_⟩
      · simpa [List.countP_cons, List.any_cons, hr] using ih1
      · intro em hem g hg
        rcases List.mem_cons.mp hem with rfl | hem'
        · exact absurd hg (by simp)
        · exact ih2 em hem' g hg
      · simpa [List.any_cons, hr] using ih3
    · -- head unchanged: read the stored old block
      have ht : tick url inst.avail inst.read inst.prev reg = (bOld, reg, none) := by
        rw [hr, hp]
        simp [tick]
      obtain ⟨ih1, ih2, ih3⟩ := ih reg hprev' hread' hkey
      rw [pollRound_cons, ht]
      refine ⟨?_, ?_, ?_⟩
      · simpa [List.countP_cons, List.any_cons, hr, hne] using ih1
      · intro em hem g hg
        rcases List.mem_cons.mp hem with rfl | hem'
        · exact absurd hg (by simp)
        · exact ih2 em hem' g hg
      · simpa [List.any_cons, hr, hne] using ih3
    · -- read the strictly newer block
      cases havail : inst.avail
      · -- VU state unavailable: no gate, no emission
        have ht : tick url inst.avail inst.read inst.prev reg = (bNew, reg, none) := by
          rw [hr, hp, havail]
          simp [tick, hlt]
        obtain ⟨ih1, ih2, ih3⟩ := ih reg hprev' hread' hkey
        rw [pollRound_cons, ht]
        refine ⟨?_, ?_, ?_⟩
        · simpa [List.countP_cons, List.any_cons, havail] using ih1
        · intro em hem g hg
          rcases List.mem_cons.mp hem with rfl | hem'
          · exact absurd hg (by simp)
          · exact ih2 em hem' g hg
        · simpa [List.any_cons, havail] using ih3
      · -- VU state available: insert the key and emit; everyone after skips
        have ht : tick url inst.avail inst.read inst.prev reg =
            (bNew, (url ++ decRepr bNew.number) :: reg,
              some (blockSamples bNew
                ((bNew.txs : ℚ) / (((bNew.timestamp : Int) - (bOld.timestamp : Int)) : ℚ))
                ((bNew.timestamp : Int) - (bOld.timestamp : Int)))) := by
          rw [hr, hp, havail]
          simp [tick, hlt, hkey]
        have hrest := pollRound_key_present url bOld bNew hlt rest
          ((url ++ decRepr bNew.number) :: reg) hprev' hread' (List.mem_cons_self _ _)
        rw [pollRound_cons, ht]
        refine ⟨?_, ?_, ?_⟩
        · rw [hrest]
          simp only [List.countP_cons, Option.isSome_some, if_true]
          have hzero : (rest.map fun _ => (none : Option (List Sample))).countP
              (fun em => em.isSome) = 0 := by
            rw [List.countP_eq_zero]
            intro a ha
            obtain ⟨i, _, rfl⟩ := List.mem_map.mp ha
            simp
          simp [hzero, List.any_cons, hr, havail]
        · intro em hem g hg
          rw [hrest] at hem
          rcases List.mem_cons.mp hem with rfl | hem'
          · obtain rfl : blockSamples bNew
                ((bNew.txs : ℚ) / (((bNew.timestamp : Int) - (bOld.timestamp : Int)) : ℚ))
                ((bNew.timestamp : Int) - (bOld.timestamp : Int)) = g := by
              simpa using hg
            rfl
          · obtain ⟨i, _, rfl⟩ := List.mem_map.mp hem'
            exact absurd hg (by simp)
        · rw [hrest]
          simp [List.any_cons, hr, havail]

/-- C6 amended-claim witness: five instances (one state-unavailable reading
the new head, two state-available reading the new head, one reading the old
head, one failing its read) emit exactly one four-sample group, and the key
is registered once. -/
theorem pollRound_dedup_witness :
    ((pollRound "u" [⟨⟨3, 100, 5, 0, 0⟩, false, some ⟨4, 105, 20, 0, 0⟩⟩,
        ⟨⟨3, 100, 5, 0, 0⟩, true, some ⟨4, 105, 20, 0, 0⟩⟩,
        ⟨⟨3, 100, 5, 0, 0⟩, true, some ⟨4, 105, 20, 0, 0⟩⟩,
        ⟨⟨3, 100, 5, 0, 0⟩, true, some ⟨3, 100, 5, 0, 0⟩⟩,
        ⟨⟨3, 100, 5, 0, 0⟩, true, none⟩] []).2.countP (fun em => em.isSome)) = 1 ∧
    (pollRound "u" [⟨⟨3, 100, 5, 0, 0⟩, false, some ⟨4, 105, 20, 0, 0⟩⟩,
        ⟨⟨3, 100, 5, 0, 0⟩, true, some ⟨4, 105, 20, 0, 0⟩⟩,
        ⟨⟨3, 100, 5, 0, 0⟩, true, some ⟨4, 105, 20, 0, 0⟩⟩,
        ⟨⟨3, 100, 5, 0, 0⟩, true, some ⟨3, 100, 5, 0, 0⟩⟩,
        ⟨⟨3, 100, 5, 0, 0⟩, true, none⟩] []).1 = ["u" ++ decRepr 4] := by
  have h := pollRound_dedup "u" ⟨3, 100, 5, 0, 0⟩ ⟨4, 105, 20, 0, 0⟩ (by decide)
    [⟨⟨3, 100, 5, 0, 0⟩, false, some ⟨4, 105, 20, 0, 0⟩⟩,
     ⟨⟨3, 100, 5, 0, 0⟩, true, some ⟨4, 105, 20, 0, 0⟩⟩,
     ⟨⟨3, 100, 5, 0, 0⟩, true, some ⟨4, 105, 20, 0, 0⟩⟩,
     ⟨⟨3, 100, 5, 0, 0⟩, true, some ⟨3, 100, 5, 0, 0⟩⟩,
     ⟨⟨3, 100, 5, 0, 0⟩, true, none⟩] []
    (by decide) (by decide) (by decide)
  refine ⟨?_, ?_⟩
  · rw [h.1]
    decide
  · rw [h.2.2]
    decide

end XK6Vechain
